import Mathlib

set_option maxRecDepth 16384

/-!
Verification of the needletail benchmark driver (src/bench/benchmark.c) and of
the streaming FASTA/FASTQ record reader it drives.  The driver source is
embedded directly; the record reader (readfq/kseq.h) is not part of the source
tree, so it is modelled from the specification of the Streaming Record Reader.
-/

/-- Result of one kseq_read call as observed by the benchmark driver: a parsed
record carrying its sequence length (a non-negative return value), end of
stream, or a parse error (a negative return value other than end of stream). -/
inductive KseqResult where
  | record (slen : Nat)
  | eof
  | err
deriving DecidableEq

/-- The read loop of main in src/bench/benchmark.c: while kseq_read returns a
non-negative value, slen += seq->seq.l; the unsigned long accumulator is
reduced modulo 2 ^ w, where w is the bit width of unsigned long. -/
def driverLoop (w : Nat) : List KseqResult → Nat → Nat
  | [], acc => acc
  | KseqResult.record l :: rest, acc => driverLoop w rest ((acc + l) % 2 ^ w)
  | KseqResult.eof :: _, acc => acc
  | KseqResult.err :: _, acc => acc

/-- The value of slen after the read loop of main, starting from slen = 0. -/
def driverTotal (w : Nat) (rs : List KseqResult) : Nat := driverLoop w rs 0

/-- Observable outcome of one run of the driver process. -/
structure DriverOutput where
  stdout : String
  stderr : String
  exitCode : Nat
deriving DecidableEq

/-- main in src/bench/benchmark.c: if fopen fails, perror writes to standard
error and the process exits with status 1; otherwise the read loop runs, the
total is printed as a decimal integer followed by a newline on standard
output, and main returns 0. -/
def runDriver (w : Nat) (file : Option (List KseqResult)) : DriverOutput :=
  match file with
  | none => ⟨"", "fopen: cannot open input", 1⟩
  | some rs => ⟨Nat.repr (driverTotal w rs) ++ "\n", "", 0⟩

/-- Modelled from the spec: error taxonomy of the record reader (readfq/kseq.h
is absent from src/).  badHeader is the missing-sigil structural violation,
truncatedRecord the end-of-input-too-early subtype, qualityOverrun a quality
block longer than the sequence. -/
inductive ErrKind where
  | badHeader
  | truncatedRecord
  | qualityOverrun
deriving DecidableEq

/-- Modelled from the spec: one parsed record of the record reader
(readfq/kseq.h is absent from src/): header name, header comment, sequence
bytes with newlines stripped, and the quality bytes (empty for FASTA). -/
structure Record where
  name : List Char
  comment : List Char
  sequence : List Char
  quality : List Char
deriving DecidableEq

/-- Modelled from the spec: outcome of one next_record call; a record also
carries the unconsumed remainder of the input (the one-line pushback is the
head of that remainder). -/
inductive ReadResult where
  | record (r : Record) (rest : List (List Char))
  | endOfStream
  | formatError (kind : ErrKind)
deriving DecidableEq

/-- Modelled from the spec: the line-oriented view of the byte stream taken by
the reader; a final line without a terminating newline is still a line. -/
def splitLines : List Char → List (List Char)
  | [] => []
  | c :: cs =>
    if c = '\n' then [] :: splitLines cs
    else
      match splitLines cs with
      | [] => [[c]]
      | l :: ls => (c :: l) :: ls

/-- Horizontal whitespace, for header tokenization and blank-line detection. -/
def isWSChar (c : Char) : Bool := c == ' ' || c == '\t' || c == '\r'

/-- A line consisting only of whitespace (including the empty line). -/
def isBlankLine (l : List Char) : Bool := l.all isWSChar

/-- Modelled from the spec: blank lines between records are skipped before a
header is read (readfq/kseq.h is absent from src/). -/
def skipBlanks : List (List Char) → List (List Char)
  | [] => []
  | l :: rest => if isBlankLine l then skipBlanks rest else l :: rest

/-- Modelled from the spec: split a header line body (after the sigil) into
the name (token up to the first whitespace) and the comment (remainder after
the first whitespace run). -/
def splitHeader (l : List Char) : List Char × List Char :=
  (l.takeWhile (fun ch => !isWSChar ch),
   (l.dropWhile (fun ch => !isWSChar ch)).dropWhile isWSChar)

/-- Modelled from the spec: the InSequence state for a FASTA record - append
sequence lines until a line starting with a header sigil (left unconsumed as
the one-line pushback) or end of input completes the record. -/
def fastaSeq (n cm acc : List Char) : List (List Char) → ReadResult
  | [] => ReadResult.record ⟨n, cm, acc, []⟩ []
  | line :: rest =>
    if line.head? = some '>' ∨ line.head? = some '@' then
      ReadResult.record ⟨n, cm, acc, []⟩ (line :: rest)
    else fastaSeq n cm (acc ++ line) rest

/-- Modelled from the spec: the InQuality state for a FASTQ record - append
quality lines until exactly len(sequence) quality bytes are collected; end of
input before that is a truncated record, and a quality block exceeding the
sequence length is a format error. -/
def fastqQual (n cm sv qacc : List Char) : List (List Char) → ReadResult
  | [] =>
    if qacc.length = sv.length then ReadResult.record ⟨n, cm, sv, qacc⟩ []
    else ReadResult.formatError ErrKind.truncatedRecord
  | line :: rest =>
    if qacc.length = sv.length then ReadResult.record ⟨n, cm, sv, qacc⟩ (line :: rest)
    else if sv.length < (qacc ++ line).length then
      ReadResult.formatError ErrKind.qualityOverrun
    else fastqQual n cm sv (qacc ++ line) rest

/-- Modelled from the spec: the InSequence state for a FASTQ record - append
sequence lines until the quality separator line starting with a plus sign;
per the length invariant, a FASTQ record whose sequence is non-empty and that
ends without a quality block is a format error (truncated record). -/
def fastqSeq (n cm acc : List Char) : List (List Char) → ReadResult
  | [] =>
    if acc = [] then ReadResult.record ⟨n, cm, [], []⟩ []
    else ReadResult.formatError ErrKind.truncatedRecord
  | line :: rest =>
    if line.head? = some '+' then fastqQual n cm acc [] rest
    else if line.head? = some '>' ∨ line.head? = some '@' then
      (if acc = [] then ReadResult.record ⟨n, cm, [], []⟩ (line :: rest)
       else ReadResult.formatError ErrKind.truncatedRecord)
    else fastqSeq n cm (acc ++ line) rest

/-- Modelled from the spec: next_record of the record reader (readfq/kseq.h is
absent from src/) after blank-line skipping.  On exhaustion EndOfStream; a
header line must begin with a greater-than sign (FASTA) or an at sign
(FASTQ), otherwise FormatError. -/
def nextRecordHead : List (List Char) → ReadResult
  | [] => ReadResult.endOfStream
  | line :: rest =>
    if line.head? = some '>' then
      fastaSeq (splitHeader line.tail).1 (splitHeader line.tail).2 [] rest
    else if line.head? = some '@' then
      fastqSeq (splitHeader line.tail).1 (splitHeader line.tail).2 [] rest
    else ReadResult.formatError ErrKind.badHeader

/-- Modelled from the spec: next_record on the line-oriented remaining input -
skip blank lines, then dispatch on the header sigil. -/
def nextRecordL (input : List (List Char)) : ReadResult :=
  nextRecordHead (skipBlanks input)

/-- Modelled from the spec: next_record on a raw byte source. -/
def next_record (input : List Char) : ReadResult := nextRecordL (splitLines input)

/-- Modelled from the spec: repeated next_record calls, collecting records
until EndOfStream (no error) or a FormatError, with explicit fuel so that the
iteration is structurally recursive.  The fuel case is never reached when the
fuel exceeds the number of input lines. -/
def readAllF : Nat → List (List Char) → List Record × Option ErrKind
  | 0, _ => ([], none)
  | fuel + 1, input =>
    match nextRecordL input with
    | ReadResult.record r rest =>
      let p := readAllF fuel rest
      (r :: p.1, p.2)
    | ReadResult.endOfStream => ([], none)
    | ReadResult.formatError k => ([], some k)

/-- Modelled from the spec: the full lazy record sequence of a finite input -
all records in file order, together with the terminal signal (none for
EndOfStream, some kind for a FormatError). -/
def readAll (input : List (List Char)) : List Record × Option ErrKind :=
  readAllF (input.length + 1) input

/-- Modelled from the spec: the stream of kseq_read outcomes the driver
observes - one non-negative return per record, then end of stream (-1) if the
reader ran out of input cleanly, or an error return otherwise. -/
def readerResults (input : List (List Char)) : List KseqResult :=
  (readAll input).1.map (fun r => KseqResult.record r.sequence.length) ++
    [match (readAll input).2 with
     | none => KseqResult.eof
     | some _ => KseqResult.err]

/-- The whole benchmark run on the raw bytes of a successfully opened file:
the spec-modelled reader feeds the embedded driver loop. -/
def runProgram (w : Nat) (bytes : List Char) : DriverOutput :=
  runDriver w (some (readerResults (splitLines bytes)))

/-- The bytes a run actually obtains from a chunked byte-source: each fill
call returns one chunk, and a zero-byte return means permanent end of
stream. -/
def drain : List (List Char) → List Char
  | [] => []
  | chunk :: rest => if chunk = [] then [] else chunk ++ drain rest

/-- Per-record sequence lengths consumed by a run over a chunked source. -/
def sourceRecordLens (src : List (List Char)) : List Nat :=
  (readAll (splitLines (drain src))).1.map (fun r => r.sequence.length)

/-- The whole benchmark run over a chunked byte-source. -/
def runOnSource (w : Nat) (src : List (List Char)) : DriverOutput :=
  runProgram w (drain src)

/-- Laying out lines with a trailing newline each. -/
def linesJoin (parts : List (List Char)) : List Char :=
  (parts.map (fun p => p ++ ['\n'])).flatten

/-- A sequence length of 2 ^ 63: two records of this length overflow a 64-bit
unsigned long total. -/
def bigM : Nat := 2 ^ 63

/-- Two FASTA records of 2 ^ 63 sequence bytes each: the true total sequence
length is 2 ^ 64, which wraps to 0 in the driver accumulator. -/
def bigInput : List Char :=
  '>' :: 'r' :: '\n' ::
    (List.replicate bigM 'A' ++ '\n' :: '>' :: 's' :: '\n' :: List.replicate bigM 'A')

/-- Skipping blank lines never lengthens the input. -/
theorem skipBlanks_length_le : ∀ ls : List (List Char), (skipBlanks ls).length ≤ ls.length
  | [] => Nat.le_refl 0
  | l :: rest => by
    simp only [skipBlanks]
    split
    · exact Nat.le_trans (skipBlanks_length_le rest) (Nat.le_succ _)
    · exact Nat.le_refl _

/-- The remainder returned with a FASTA record is no longer than the input. -/
theorem fastaSeq_rest_length_le :
    ∀ (ls : List (List Char)) (n cm acc : List Char) (r : Record)
      (rest : List (List Char)),
      fastaSeq n cm acc ls = ReadResult.record r rest → rest.length ≤ ls.length := by
  intro ls
  induction ls with
  | nil =>
    intro n cm acc r rest h
    simp only [fastaSeq] at h
    cases h
    exact Nat.le_refl 0
  | cons line tl ih =>
    intro n cm acc r rest h
    simp only [fastaSeq] at h
    split at h
    · cases h
      exact Nat.le_refl _
    · exact Nat.le_trans (ih _ _ _ _ _ h) (Nat.le_succ _)

/-- The remainder returned with a completed quality block is no longer than
the input. -/
theorem fastqQual_rest_length_le :
    ∀ (ls : List (List Char)) (n cm sv qacc : List Char) (r : Record)
      (rest : List (List Char)),
      fastqQual n cm sv qacc ls = ReadResult.record r rest → rest.length ≤ ls.length := by
  intro ls
  induction ls with
  | nil =>
    intro n cm sv qacc r rest h
    simp only [fastqQual] at h
    split at h
    · cases h
      exact Nat.le_refl 0
    · cases h
  | cons line tl ih =>
    intro n cm sv qacc r rest h
    simp only [fastqQual] at h
    split at h
    · cases h
      exact Nat.le_refl _
    · split at h
      · cases h
      · exact Nat.le_trans (ih _ _ _ _ _ _ h) (Nat.le_succ _)

/-- The remainder returned with a FASTQ record is no longer than the input. -/
theorem fastqSeq_rest_length_le :
    ∀ (ls : List (List Char)) (n cm acc : List Char) (r : Record)
      (rest : List (List Char)),
      fastqSeq n cm acc ls = ReadResult.record r rest → rest.length ≤ ls.length := by
  intro ls
  induction ls with
  | nil =>
    intro n cm acc r rest h
    simp only [fastqSeq] at h
    split at h
    · cases h
      exact Nat.le_refl 0
    · cases h
  | cons line tl ih =>
    intro n cm acc r rest h
    simp only [fastqSeq] at h
    split at h
    · exact Nat.le_trans (fastqQual_rest_length_le _ _ _ _ _ _ _ h) (Nat.le_succ _)
    · split at h
      · split at h
        · cases h
          exact Nat.le_refl _
        · cases h
      · exact Nat.le_trans (ih _ _ _ _ _ h) (Nat.le_succ _)

/-- Producing a record consumes at least the header line: the remainder is
strictly shorter than the input. -/
theorem nextRecordL_progress {input : List (List Char)} {r : Record}
    {rest : List (List Char)} (h : nextRecordL input = ReadResult.record r rest) :
    rest.length < input.length := by
  unfold nextRecordL at h
  rcases hsb : skipBlanks input with _ | ⟨line, tl⟩
  · rw [hsb] at h
    cases h
  · rw [hsb] at h
    have hlen : tl.length + 1 ≤ input.length := by
      have := skipBlanks_length_le input
      rw [hsb] at this
      simpa using this
    simp only [nextRecordHead] at h
    split at h
    · have := fastaSeq_rest_length_le _ _ _ _ _ _ h
      omega
    · split at h
      · have := fastqSeq_rest_length_le _ _ _ _ _ _ h
        omega
      · cases h

/-- One fuelled step when a record is produced. -/
theorem readAllF_succ_record {input : List (List Char)} {r : Record}
    {rest : List (List Char)} (fuel : Nat)
    (h : nextRecordL input = ReadResult.record r rest) :
    readAllF (fuel + 1) input
      = (r :: (readAllF fuel rest).1, (readAllF fuel rest).2) := by
  simp only [readAllF]
  rw [h]

/-- One fuelled step at EndOfStream. -/
theorem readAllF_succ_eos {input : List (List Char)} (fuel : Nat)
    (h : nextRecordL input = ReadResult.endOfStream) :
    readAllF (fuel + 1) input = ([], none) := by
  simp only [readAllF]
  rw [h]

/-- One fuelled step at a FormatError. -/
theorem readAllF_succ_err {input : List (List Char)} {k : ErrKind} (fuel : Nat)
    (h : nextRecordL input = ReadResult.formatError k) :
    readAllF (fuel + 1) input = ([], some k) := by
  simp only [readAllF]
  rw [h]

/-- The fuel is irrelevant as long as it exceeds the number of input lines. -/
theorem readAllF_congr :
    ∀ (f1 : Nat) (input : List (List Char)) (f2 : Nat),
      input.length < f1 → input.length < f2 → readAllF f1 input = readAllF f2 input := by
  intro f1
  induction f1 with
  | zero => intro input f2 h1 _; omega
  | succ f1 ih =>
    intro input f2 h1 h2
    cases f2 with
    | zero => omega
    | succ f2 =>
      rcases hnr : nextRecordL input with ⟨r, rest⟩ | _ | k
      · have hrest := nextRecordL_progress hnr
        rw [readAllF_succ_record f1 hnr, readAllF_succ_record f2 hnr,
          ih rest f2 (by omega) (by omega)]
      · rw [readAllF_succ_eos f1 hnr, readAllF_succ_eos f2 hnr]
      · rw [readAllF_succ_err f1 hnr, readAllF_succ_err f2 hnr]

/-- Unfolding readAll when a record is produced. -/
theorem readAll_record {input : List (List Char)} {r : Record}
    {rest : List (List Char)} (h : nextRecordL input = ReadResult.record r rest) :
    readAll input = (r :: (readAll rest).1, (readAll rest).2) := by
  have hrest := nextRecordL_progress h
  unfold readAll
  rw [readAllF_succ_record input.length h,
    readAllF_congr input.length rest (rest.length + 1) (by omega) (by omega)]

/-- Unfolding readAll at EndOfStream. -/
theorem readAll_eos {input : List (List Char)}
    (h : nextRecordL input = ReadResult.endOfStream) : readAll input = ([], none) := by
  unfold readAll
  rw [readAllF_succ_eos input.length h]

/-- Unfolding readAll at a FormatError. -/
theorem readAll_err {input : List (List Char)} {k : ErrKind}
    (h : nextRecordL input = ReadResult.formatError k) :
    readAll input = ([], some k) := by
  unfold readAll
  rw [readAllF_succ_err input.length h]

/-- A source whose fill calls all return at least one byte delivers exactly
the concatenation of its chunks. -/
theorem drain_eq_join :
    ∀ src : List (List Char), (∀ ch ∈ src, ch ≠ []) → drain src = src.flatten := by
  intro src
  induction src with
  | nil => intro _; rfl
  | cons chunk rest ih =>
    intro h
    simp only [drain, List.flatten_cons]
    rw [if_neg (h chunk (List.mem_cons_self chunk rest)),
      ih (fun ch hch => h ch (List.mem_cons_of_mem chunk hch))]

/-- The driver loop on a stream of records followed by end of stream: the
accumulator (kept reduced modulo 2 ^ w) ends at the reduced sum. -/
theorem driverLoop_records_eof (w : Nat) :
    ∀ (lens : List Nat) (tail : List KseqResult) (acc : Nat), acc < 2 ^ w →
      driverLoop w (lens.map KseqResult.record ++ KseqResult.eof :: tail) acc
        = (acc + lens.sum) % 2 ^ w := by
  intro lens
  induction lens with
  | nil =>
    intro tail acc hacc
    simp only [List.map_nil, List.nil_append, driverLoop, List.sum_nil, Nat.add_zero]
    exact (Nat.mod_eq_of_lt hacc).symm
  | cons l ls ih =>
    intro tail acc hacc
    simp only [List.map_cons, List.cons_append, driverLoop, List.sum_cons, List.append_eq]
    rw [ih tail ((acc + l) % 2 ^ w) (Nat.mod_lt _ (Nat.pos_pow_of_pos w (by omega)))]
    rw [Nat.mod_add_mod, Nat.add_assoc]

/-- The driver loop on a stream of records followed by an error return: same
value, same early stop. -/
theorem driverLoop_records_err (w : Nat) :
    ∀ (lens : List Nat) (tail : List KseqResult) (acc : Nat), acc < 2 ^ w →
      driverLoop w (lens.map KseqResult.record ++ KseqResult.err :: tail) acc
        = (acc + lens.sum) % 2 ^ w := by
  intro lens
  induction lens with
  | nil =>
    intro tail acc hacc
    simp only [List.map_nil, List.nil_append, driverLoop, List.sum_nil, Nat.add_zero]
    exact (Nat.mod_eq_of_lt hacc).symm
  | cons l ls ih =>
    intro tail acc hacc
    simp only [List.map_cons, List.cons_append, driverLoop, List.sum_cons, List.append_eq]
    rw [ih tail ((acc + l) % 2 ^ w) (Nat.mod_lt _ (Nat.pos_pow_of_pos w (by omega)))]
    rw [Nat.mod_add_mod, Nat.add_assoc]

/-- A completed quality block always has exactly as many quality bytes as
sequence bytes: fastqQual only emits a record under that guard. -/
theorem fastqQual_len_eq :
    ∀ (ls : List (List Char)) (n cm sv qacc : List Char) (r : Record)
      (rest : List (List Char)),
      fastqQual n cm sv qacc ls = ReadResult.record r rest →
        r.quality.length = r.sequence.length := by
  intro ls
  induction ls with
  | nil =>
    intro n cm sv qacc r rest h
    simp only [fastqQual] at h
    split at h
    · cases h
      assumption
    · cases h
  | cons line tl ih =>
    intro n cm sv qacc r rest h
    simp only [fastqQual] at h
    split at h
    · cases h
      assumption
    · split at h
      · cases h
      · exact ih _ _ _ _ _ _ h

/-- Every FASTQ record emitted from the InSequence state satisfies the length
invariant len(quality) = len(sequence). -/
theorem fastqSeq_len_eq :
    ∀ (ls : List (List Char)) (n cm acc : List Char) (r : Record)
      (rest : List (List Char)),
      fastqSeq n cm acc ls = ReadResult.record r rest →
        r.quality.length = r.sequence.length := by
  intro ls
  induction ls with
  | nil =>
    intro n cm acc r rest h
    simp only [fastqSeq] at h
    split at h
    · cases h
      rfl
    · cases h
  | cons line tl ih =>
    intro n cm acc r rest h
    simp only [fastqSeq] at h
    split at h
    · exact fastqQual_len_eq _ _ _ _ _ _ _ h
    · split at h
      · split at h
        · cases h
          rfl
        · cases h
      · exact ih _ _ _ _ _ h

/-- Dispatch of the post-blank-line state on a FASTA header line. -/
theorem nextRecordHead_gt (hdr : List Char) (rest : List (List Char)) :
    nextRecordHead (('>' :: hdr) :: rest)
      = fastaSeq (splitHeader hdr).1 (splitHeader hdr).2 [] rest := by
  simp [nextRecordHead]

/-- Dispatch of the post-blank-line state on a FASTQ header line. -/
theorem nextRecordHead_at (hdr : List Char) (rest : List (List Char)) :
    nextRecordHead (('@' :: hdr) :: rest)
      = fastqSeq (splitHeader hdr).1 (splitHeader hdr).2 [] rest := by
  simp [nextRecordHead]

/-- A line starting with the FASTA sigil is never blank, so next_record on it
goes straight to the FASTA sequence state. -/
theorem nextRecordL_gt (hdr : List Char) (rest : List (List Char)) :
    nextRecordL (('>' :: hdr) :: rest)
      = fastaSeq (splitHeader hdr).1 (splitHeader hdr).2 [] rest := by
  unfold nextRecordL skipBlanks
  rw [if_neg (by simp [isBlankLine, isWSChar])]
  exact nextRecordHead_gt hdr rest

/-- Splitting at the first newline of a newline-free line. -/
theorem splitLines_line :
    ∀ (l t : List Char), '\n' ∉ l → splitLines (l ++ '\n' :: t) = l :: splitLines t := by
  intro l
  induction l with
  | nil =>
    intro t _
    simp [splitLines]
  | cons c cs ih =>
    intro t h
    have hc : ¬c = '\n' := fun hc => h (hc ▸ List.mem_cons_self c cs)
    have hcs : '\n' ∉ cs := fun hm => h (List.mem_cons_of_mem c hm)
    simp only [List.cons_append, splitLines, if_neg hc, List.append_eq, ih t hcs]

/-- A non-empty newline-free tail is one final line. -/
theorem splitLines_single :
    ∀ l : List Char, l ≠ [] → '\n' ∉ l → splitLines l = [l] := by
  intro l
  induction l with
  | nil => intro h _; exact absurd rfl h
  | cons c cs ih =>
    intro _ h
    have hc : ¬c = '\n' := fun hc => h (hc ▸ List.mem_cons_self c cs)
    have hcs : '\n' ∉ cs := fun hm => h (List.mem_cons_of_mem c hm)
    simp only [splitLines, if_neg hc]
    rcases hcase : cs with _ | ⟨d, ds⟩
    · rfl
    · rw [← hcase, ih (by rw [hcase]; exact List.cons_ne_nil d ds) hcs]

/-- splitLines is a left inverse of linesJoin on newline-free lines. -/
theorem splitLines_linesJoin :
    ∀ parts : List (List Char), (∀ p ∈ parts, '\n' ∉ p) →
      splitLines (linesJoin parts) = parts := by
  intro parts
  induction parts with
  | nil => intro _; rfl
  | cons p ps ih =>
    intro h
    have hp : '\n' ∉ p := h p (List.mem_cons_self p ps)
    have hps : ∀ q ∈ ps, '\n' ∉ q := fun q hq => h q (List.mem_cons_of_mem p hq)
    simp only [linesJoin, List.map_cons, List.flatten_cons, List.append_assoc,
      List.singleton_append]
    rw [splitLines_line p _ hp]
    rw [show (ps.map (fun p => p ++ ['\n'])).flatten = linesJoin ps from rfl, ih hps]

/-- In the FASTA sequence state, lines that do not start a new record are all
concatenated, newlines stripped, until end of input. -/
theorem fastaSeq_plain :
    ∀ (ls : List (List Char)) (n cm acc : List Char),
      (∀ p ∈ ls, ¬p.head? = some '>' ∧ ¬p.head? = some '@') →
      fastaSeq n cm acc ls = ReadResult.record ⟨n, cm, acc ++ ls.flatten, []⟩ [] := by
  intro ls
  induction ls with
  | nil =>
    intro n cm acc _
    simp [fastaSeq]
  | cons line tl ih =>
    intro n cm acc h
    have hline := h line (List.mem_cons_self line tl)
    have htl : ∀ p ∈ tl, ¬p.head? = some '>' ∧ ¬p.head? = some '@' :=
      fun p hp => h p (List.mem_cons_of_mem line hp)
    simp only [fastaSeq]
    rw [if_neg (by rw [not_or]; exact hline), ih _ _ _ htl]
    simp [List.append_assoc]

/-- In the FASTA sequence state, a line starting with a header sigil after a
run of plain lines completes the record and is pushed back unconsumed. -/
theorem fastaSeq_stop :
    ∀ (ls : List (List Char)) (n cm acc stop : List Char) (rest : List (List Char)),
      (∀ p ∈ ls, ¬p.head? = some '>' ∧ ¬p.head? = some '@') →
      (stop.head? = some '>' ∨ stop.head? = some '@') →
      fastaSeq n cm acc (ls ++ stop :: rest)
        = ReadResult.record ⟨n, cm, acc ++ ls.flatten, []⟩ (stop :: rest) := by
  intro ls
  induction ls with
  | nil =>
    intro n cm acc stop rest _ hstop
    simp only [List.nil_append, fastaSeq]
    rw [if_pos hstop]
    simp
  | cons line tl ih =>
    intro n cm acc stop rest h hstop
    have hline := h line (List.mem_cons_self line tl)
    have htl : ∀ p ∈ tl, ¬p.head? = some '>' ∧ ¬p.head? = some '@' :=
      fun p hp => h p (List.mem_cons_of_mem line hp)
    simp only [List.cons_append, fastaSeq, List.append_eq]
    rw [if_neg (by rw [not_or]; exact hline), ih _ _ _ _ _ htl hstop]
    simp [List.append_assoc]

/-- A replicated line never starts with a different character. -/
theorem replicate_head_ne (k : Nat) (c c' : Char) (hne : c ≠ c') :
    ¬(List.replicate k c).head? = some c' := by
  cases k with
  | zero => simp [List.replicate]
  | succ m =>
    simp only [List.replicate, List.head?_cons]
    exact fun h => hne (Option.some.inj h)

/-- C2 (counterexample): a parse error terminates the read loop, yet the
driver still exits with status 0 and writes nothing to standard error, so the
claimed non-zero exit with an error message on a FormatError does not hold. -/
theorem c2_format_error_exit_counterexample :
    (runDriver 64 (some [KseqResult.err])).exitCode = 0 ∧
    (runDriver 64 (some [KseqResult.err])).stderr = "" :=
  ⟨rfl, rfl⟩

/-- C2 (amended): the driver exits with status 0 on success; it exits with
status 1 and an error message on standard error only when the input file
cannot be opened; any run over an opened file - including one ended by a
FormatError - exits with status 0 and an empty standard error. -/
theorem c2_exit_status (w : Nat) (rs : List KseqResult) :
    (runDriver w none).exitCode = 1 ∧ (runDriver w none).stderr ≠ "" ∧
    (runDriver w (some rs)).exitCode = 0 ∧ (runDriver w (some rs)).stderr = "" :=
  ⟨rfl, by show ("fopen: cannot open input" : String) ≠ ""; decide, rfl, rfl⟩

/-- C4: when the next non-blank line does not begin with the FASTA or FASTQ
sigil, next_record returns FormatError - no crash, no garbage record. -/
theorem c4_bad_header_format_error (input : List (List Char)) (line : List Char)
    (rest : List (List Char)) (hs : skipBlanks input = line :: rest)
    (h1 : ¬line.head? = some '>') (h2 : ¬line.head? = some '@') :
    nextRecordL input = ReadResult.formatError ErrKind.badHeader := by
  unfold nextRecordL
  rw [hs]
  rcases line with _ | ⟨c, cs⟩
  · simp [nextRecordHead]
  · simp only [nextRecordHead]
    rw [if_neg h1, if_neg h2]

/-- C4 (witness): on input starting with the line notaheader, the first call
returns FormatError. -/
theorem c4_bad_header_format_error_witness :
    next_record ("notaheader\n".data) = ReadResult.formatError ErrKind.badHeader :=
  c4_bad_header_format_error (splitLines ("notaheader\n".data)) ("notaheader".data) []
    (by decide) (by decide) (by decide)

/-- C6: for a zero-byte byte-source the first next_record call returns
EndOfStream immediately, and iterated reading yields no records and no
error. -/
theorem c6_empty_input_end_of_stream :
    next_record [] = ReadResult.endOfStream ∧ readAll (splitLines []) = ([], none) :=
  ⟨rfl, rfl⟩

/-- C7: a FASTA header immediately followed by another header is a valid
record with empty sequence: the first call on the given input yields name
seq1 with empty sequence and pushes the second header back, and the next call
on that remainder yields name seq2 with sequence ACGT. -/
theorem c7_header_only_record :
    next_record (">seq1\n>seq2\nACGT\n".data)
      = ReadResult.record ⟨"seq1".data, [], [], []⟩ (splitLines (">seq2\nACGT\n".data)) ∧
    nextRecordL (splitLines (">seq2\nACGT\n".data))
      = ReadResult.record ⟨"seq2".data, [], "ACGT".data, []⟩ [] :=
  ⟨by decide, by decide⟩

/-- C8: the read loop stops at the first negative kseq_read return and treats
end of stream and parse errors identically - in both cases it prints the
total accumulated from the records completed so far and the driver returns 0,
reporting nothing. -/
theorem c8_negative_return_stops_loop (w : Nat) (lens : List Nat)
    (tail : List KseqResult) :
    runDriver w (some (lens.map KseqResult.record ++ KseqResult.eof :: tail))
      = runDriver w (some (lens.map KseqResult.record ++ KseqResult.err :: tail)) ∧
    runDriver w (some (lens.map KseqResult.record ++ KseqResult.err :: tail))
      = ⟨Nat.repr (lens.sum % 2 ^ w) ++ "\n", "", 0⟩ := by
  have hpos : 0 < 2 ^ w := Nat.pos_pow_of_pos w (by omega)
  constructor
  · simp only [runDriver, driverTotal]
    rw [driverLoop_records_eof w lens tail 0 hpos, driverLoop_records_err w lens tail 0 hpos]
  · simp only [runDriver, driverTotal]
    rw [driverLoop_records_err w lens tail 0 hpos, Nat.zero_add]

/-- C9: the printed total is the record-length sum reduced modulo 2 ^ w (the
unsigned long width): the accumulator value is that residue, it is always
below 2 ^ w, and the driver prints its decimal representation - wrapped, never
a trap, never negative. -/
theorem c9_unsigned_long_wraparound (w : Nat) (lens : List Nat) :
    driverTotal w (lens.map KseqResult.record ++ [KseqResult.eof]) = lens.sum % 2 ^ w ∧
    driverTotal w (lens.map KseqResult.record ++ [KseqResult.eof]) < 2 ^ w ∧
    (runDriver w (some (lens.map KseqResult.record ++ [KseqResult.eof]))).stdout
      = Nat.repr (lens.sum % 2 ^ w) ++ "\n" := by
  have hpos : 0 < 2 ^ w := Nat.pos_pow_of_pos w (by omega)
  have heq : driverTotal w (lens.map KseqResult.record ++ [KseqResult.eof])
      = lens.sum % 2 ^ w := by
    unfold driverTotal
    rw [driverLoop_records_eof w lens [] 0 hpos, Nat.zero_add]
  refine ⟨heq, ?_, ?_⟩
  · rw [heq]
    exact Nat.mod_lt _ hpos
  · show Nat.repr (driverTotal w (lens.map KseqResult.record ++ [KseqResult.eof])) ++ "\n" = _
    rw [heq]

/-- C3: every FASTQ record that next_record returns satisfies
len(quality) = len(sequence); end-of-input inside the quality block before
enough quality bytes are collected yields FormatError (TruncatedRecord); a
FASTQ record with sequence length 10 and quality length 10 parses, while
quality length 9 is a TruncatedRecord FormatError. -/
theorem c3_fastq_quality_length :
    (∀ (input : List (List Char)) (hdr : List Char) (tl : List (List Char))
        (r : Record) (rest : List (List Char)),
        skipBlanks input = ('@' :: hdr) :: tl →
        nextRecordL input = ReadResult.record r rest →
        r.quality.length = r.sequence.length) ∧
    (∀ n cm sv qacc : List Char, qacc.length < sv.length →
        fastqQual n cm sv qacc [] = ReadResult.formatError ErrKind.truncatedRecord) ∧
    next_record ("@r\nACGTACGTAC\n+\nFFFFFFFFFF\n".data)
      = ReadResult.record ⟨"r".data, [], "ACGTACGTAC".data, "FFFFFFFFFF".data⟩ [] ∧
    next_record ("@r\nACGTACGTAC\n+\nFFFFFFFFF\n".data)
      = ReadResult.formatError ErrKind.truncatedRecord := by
  refine ⟨?_, ?_, by decide, by decide⟩
  · intro input hdr tl r rest hs h
    unfold nextRecordL at h
    rw [hs, nextRecordHead_at] at h
    exact fastqSeq_len_eq _ _ _ _ _ _ h
  · intro n cm sv qacc hlt
    simp only [fastqQual]
    rw [if_neg (Nat.ne_of_lt hlt)]

/-- C3 (witness): the length invariant instantiated at the concrete ten-base
FASTQ record. -/
theorem c3_fastq_quality_length_witness :
    ("FFFFFFFFFF".data).length = ("ACGTACGTAC".data).length :=
  c3_fastq_quality_length.1 (splitLines ("@r\nACGTACGTAC\n+\nFFFFFFFFFF\n".data))
    ("r".data) ["ACGTACGTAC".data, "+".data, "FFFFFFFFFF".data]
    ⟨"r".data, [], "ACGTACGTAC".data, "FFFFFFFFFF".data⟩ [] (by decide) (by decide)

/-- C5: re-wrapping invariance - a FASTA record whose newline-free sequence
lines are laid out one per line parses to the record whose sequence is the
plain concatenation of those lines, so any two layouts with the same
concatenation parse to the identical sequence value. -/
theorem c5_multiline_invariance (hdr : List Char) (parts : List (List Char))
    (hh : '\n' ∉ hdr)
    (hp : ∀ p ∈ parts, '\n' ∉ p ∧ ¬p.head? = some '>' ∧ ¬p.head? = some '@') :
    next_record ('>' :: hdr ++ '\n' :: linesJoin parts)
      = ReadResult.record
          ⟨(splitHeader hdr).1, (splitHeader hdr).2, parts.flatten, []⟩ [] := by
  unfold next_record
  rw [show ('>' :: hdr ++ '\n' :: linesJoin parts)
      = ('>' :: hdr) ++ '\n' :: linesJoin parts from rfl]
  rw [splitLines_line ('>' :: hdr) _ (by
    intro hm
    rcases List.mem_cons.mp hm with h | h
    · exact absurd h (by decide)
    · exact hh h)]
  rw [splitLines_linesJoin parts (fun p hp2 => (hp p hp2).1)]
  rw [nextRecordL_gt]
  rw [fastaSeq_plain parts _ _ _ (fun p hp2 => (hp p hp2).2)]
  simp

/-- C5 (witness): the sequence ACGTACGT split across 1, 2, or 4 lines parses
to the identical sequence value in all three layouts. -/
theorem c5_multiline_invariance_witness :
    next_record ('>' :: "r".data ++ '\n' :: linesJoin ["ACGTACGT".data])
      = ReadResult.record ⟨"r".data, [], "ACGTACGT".data, []⟩ [] ∧
    next_record ('>' :: "r".data ++ '\n' :: linesJoin ["ACGT".data, "ACGT".data])
      = ReadResult.record ⟨"r".data, [], "ACGTACGT".data, []⟩ [] ∧
    next_record ('>' :: "r".data ++ '\n'
        :: linesJoin ["AC".data, "GT".data, "AC".data, "GT".data])
      = ReadResult.record ⟨"r".data, [], "ACGTACGT".data, []⟩ [] :=
  ⟨(c5_multiline_invariance "r".data ["ACGTACGT".data]
      (by decide) (by decide)).trans (by decide),
   (c5_multiline_invariance "r".data ["ACGT".data, "ACGT".data]
      (by decide) (by decide)).trans (by decide),
   (c5_multiline_invariance "r".data ["AC".data, "GT".data, "AC".data, "GT".data]
      (by decide) (by decide)).trans (by decide)⟩

/-- C10: the driver is deterministic - two runs over chunked byte-sources that
deliver the same byte content (all fill calls returning at least one byte, so
the content is the chunk concatenation) consume the same sequence of
per-record lengths and produce the identical process output. -/
theorem c10_deterministic_output (w : Nat) (s1 s2 : List (List Char))
    (h1 : ∀ ch ∈ s1, ch ≠ []) (h2 : ∀ ch ∈ s2, ch ≠ [])
    (hj : s1.flatten = s2.flatten) :
    sourceRecordLens s1 = sourceRecordLens s2 ∧ runOnSource w s1 = runOnSource w s2 := by
  have hd : drain s1 = drain s2 := by
    rw [drain_eq_join s1 h1, drain_eq_join s2 h2, hj]
  constructor
  · unfold sourceRecordLens
    rw [hd]
  · unfold runOnSource
    rw [hd]

/-- C10 (witness): the same FASTA bytes delivered in two chunks or in one
chunk give the same record lengths and the same output. -/
theorem c10_deterministic_output_witness :
    sourceRecordLens [">r\nAC".data, "GT\n".data]
      = sourceRecordLens [">r\nACGT\n".data] ∧
    runOnSource 64 [">r\nAC".data, "GT\n".data]
      = runOnSource 64 [">r\nACGT\n".data] :=
  c10_deterministic_output 64 [">r\nAC".data, "GT\n".data] [">r\nACGT\n".data]
    (by decide) (by decide) (by decide)

/-- C1 (amended): for every finite byte-source whose record stream ends in
EndOfStream, the driver sums len(sequence) over all records yielded by the
reader and prints that total reduced modulo 2 ^ w - w the unsigned long bit
width - as a decimal integer followed by a newline, exiting with status 0;
the printed value equals the exact total whenever it is below 2 ^ w. -/
theorem c1_driver_prints_reduced_total (w : Nat) (bytes : List Char)
    (h : (readAll (splitLines bytes)).2 = none) :
    (runProgram w bytes).stdout
      = Nat.repr (((readAll (splitLines bytes)).1.map
          (fun r => r.sequence.length)).sum % 2 ^ w) ++ "\n" ∧
    (runProgram w bytes).exitCode = 0 := by
  have hterm : (match (readAll (splitLines bytes)).2 with
      | none => KseqResult.eof
      | some _ => KseqResult.err) = KseqResult.eof := by rw [h]
  have hmap : (readAll (splitLines bytes)).1.map
        (fun r => KseqResult.record r.sequence.length)
      = ((readAll (splitLines bytes)).1.map (fun r => r.sequence.length)).map
          KseqResult.record := by
    rw [List.map_map]
    rfl
  constructor
  · show Nat.repr (driverTotal w (readerResults (splitLines bytes))) ++ "\n" = _
    unfold readerResults
    rw [hterm, hmap]
    unfold driverTotal
    rw [driverLoop_records_eof w _ [] 0 (Nat.pos_pow_of_pos w (by omega)), Nat.zero_add]
  · rfl

/-- C1 (witness): on a four-base FASTA file the reader reaches EndOfStream and
the driver prints the reduced total. -/
theorem c1_driver_prints_reduced_total_witness :
    (readAll (splitLines (">r\nACGT\n".data))).2 = none ∧
    (runProgram 64 (">r\nACGT\n".data)).stdout
      = Nat.repr (((readAll (splitLines (">r\nACGT\n".data))).1.map
          (fun r => r.sequence.length)).sum % 2 ^ 64) ++ "\n" :=
  ⟨by decide, (c1_driver_prints_reduced_total 64 (">r\nACGT\n".data) (by decide)).1⟩

/-- C1 (counterexample): on two FASTA records of 2 ^ 63 sequence bytes each
the reader reaches EndOfStream with a true total of 2 ^ 64, but the driver
with 64-bit unsigned long prints 0, not that total. -/
theorem c1_overflow_counterexample :
    (readAll (splitLines bigInput)).2 = none ∧
    ((readAll (splitLines bigInput)).1.map (fun r => r.sequence.length)).sum = 2 ^ 64 ∧
    (runProgram 64 bigInput).stdout = "0\n" ∧
    (runProgram 64 bigInput).stdout ≠ Nat.repr (2 ^ 64) ++ "\n" := by
  have hM0 : 0 < bigM := Nat.pos_pow_of_pos 63 (by omega)
  have hMnil : List.replicate bigM 'A' ≠ [] := by
    intro hnil
    have := congrArg List.length hnil
    simp only [List.length_replicate, List.length_nil] at this
    omega
  have hMnl : '\n' ∉ List.replicate bigM 'A' := by
    intro hm
    exact absurd (List.eq_of_mem_replicate hm) (by decide)
  have hplain : ∀ p ∈ [List.replicate bigM 'A'],
      ¬p.head? = some '>' ∧ ¬p.head? = some '@' := by
    intro p hp
    rw [List.mem_singleton.mp hp]
    exact ⟨replicate_head_ne bigM 'A' '>' (by decide),
      replicate_head_ne bigM 'A' '@' (by decide)⟩
  have hsh : splitHeader ['r'] = (['r'], []) := by decide
  have hsh2 : splitHeader ['s'] = (['s'], []) := by decide
  have hsplit : splitLines bigInput
      = [['>', 'r'], List.replicate bigM 'A', ['>', 's'], List.replicate bigM 'A'] := by
    unfold bigInput
    rw [show ('>' :: 'r' :: '\n' ::
          (List.replicate bigM 'A' ++ '\n' :: '>' :: 's' :: '\n' :: List.replicate bigM 'A'))
        = ['>', 'r'] ++ '\n' ::
          (List.replicate bigM 'A' ++ '\n' :: ('>' :: 's' :: '\n' :: List.replicate bigM 'A'))
        from rfl]
    rw [splitLines_line ['>', 'r'] _ (by decide)]
    rw [splitLines_line (List.replicate bigM 'A') _ hMnl]
    rw [show ('>' :: 's' :: '\n' :: List.replicate bigM 'A')
        = ['>', 's'] ++ '\n' :: List.replicate bigM 'A' from rfl]
    rw [splitLines_line ['>', 's'] _ (by decide)]
    rw [splitLines_single _ hMnil hMnl]
  have hrec1 : nextRecordL
        [['>', 'r'], List.replicate bigM 'A', ['>', 's'], List.replicate bigM 'A']
      = ReadResult.record ⟨['r'], [], List.replicate bigM 'A', []⟩
          [['>', 's'], List.replicate bigM 'A'] := by
    rw [show ([['>', 'r'], List.replicate bigM 'A', ['>', 's'], List.replicate bigM 'A']
          : List (List Char))
        = ('>' :: ['r']) ::
            ([List.replicate bigM 'A'] ++ ['>', 's'] :: [List.replicate bigM 'A'])
        from rfl]
    rw [nextRecordL_gt]
    rw [fastaSeq_stop [List.replicate bigM 'A'] _ _ _ _ _ hplain (Or.inl (by decide))]
    simp only [hsh, List.flatten_cons, List.flatten_nil, List.append_nil, List.nil_append]
  have hrec2 : nextRecordL [['>', 's'], List.replicate bigM 'A']
      = ReadResult.record ⟨['s'], [], List.replicate bigM 'A', []⟩ [] := by
    rw [show ([['>', 's'], List.replicate bigM 'A'] : List (List Char))
        = ('>' :: ['s']) :: [List.replicate bigM 'A'] from rfl]
    rw [nextRecordL_gt]
    rw [fastaSeq_plain [List.replicate bigM 'A'] _ _ _ hplain]
    simp only [hsh2, List.flatten_cons, List.flatten_nil, List.append_nil, List.nil_append]
  have hread : readAll (splitLines bigInput)
      = ([⟨['r'], [], List.replicate bigM 'A', []⟩,
          ⟨['s'], [], List.replicate bigM 'A', []⟩], none) := by
    rw [hsplit]
    rw [readAll_record hrec1, readAll_record hrec2, @readAll_eos [] rfl]
  have hsum : ((readAll (splitLines bigInput)).1.map (fun r => r.sequence.length)).sum
      = 2 ^ 64 := by
    rw [hread]
    simp only [List.map_cons, List.map_nil, List.sum_cons, List.sum_nil,
      List.length_replicate]
    rw [show bigM = 2 ^ 63 from rfl]
    norm_num
  have hrr : readerResults (splitLines bigInput)
      = [KseqResult.record bigM, KseqResult.record bigM, KseqResult.eof] := by
    unfold readerResults
    rw [hread]
    simp only [List.map_cons, List.map_nil, List.length_replicate, List.cons_append,
      List.nil_append]
  have hstdout : (runProgram 64 bigInput).stdout = "0\n" := by
    show Nat.repr (driverTotal 64 (readerResults (splitLines bigInput))) ++ "\n" = "0\n"
    rw [hrr]
    have htot : driverTotal 64 [KseqResult.record bigM, KseqResult.record bigM,
        KseqResult.eof] = ([bigM, bigM].sum) % 2 ^ 64 := by
      have hdl := driverLoop_records_eof 64 [bigM, bigM] [] 0 (by norm_num)
      unfold driverTotal
      simpa using hdl
    rw [htot]
    rw [show ([bigM, bigM].sum) % 2 ^ 64 = 0 from by
      simp only [List.sum_cons, List.sum_nil]
      rw [show bigM = 2 ^ 63 from rfl]
      norm_num]
    decide
  refine ⟨by rw [hread], hsum, hstdout, ?_⟩
  rw [hstdout]
  decide
